import Mathlib

/-!
Shallow embedding of `src/include/cmdline_parser.h` (namespace `cmdline`).

Modelling conventions:

* `std::map<std::string, std::string>` / `std::map<std::string, ProgramOption>`
  are modelled as association lists with overwrite-on-insert semantics
  (`setKey`) and lookup (`findKey`); `getKey` models reading
  `std::map<std::string, std::string>::operator[]`, which yields `""` for an
  absent key.
* `assert(...)` failures are modelled by the dedicated outcome
  `Outcome.assertFail` (the source is compiled with assertions enabled).
* `std::exit(code)` after writing to the streams is modelled by
  `Outcome.exited code stdoutText stderrText`, recording what was written to
  `std::cout` and `std::cerr` on that path.
* `arg.front()` on an empty `std::string` is undefined behaviour; the model
  returns the dedicated outcome `Outcome.ub` in that case.  For a non-empty
  string, `arg.front() == '-'` is `firstIsDash arg`.  The check
  `argv[i][0] == '-'` on a C string is defined even for the empty token
  (it reads the NUL terminator, which is not a dash), so it is
  `firstIsDash` without any emptiness guard.
* The non-Windows build is modelled (`_WIN32` is not defined), so
  `extractProgramName` only splits on forward slashes.
-/

/-- Model of `cmdline::ProgramOption` (the plain aggregate: `name`, `flags`,
`description`, `defaultValue`). -/
structure ProgramOption where
  name : String
  flags : List String
  description : String
  defaultValue : String
deriving DecidableEq, Repr

/-- Model of the default constructor `ProgramOption()` — all fields empty. -/
def emptyOption : ProgramOption := ⟨"", [], "", ""⟩

/-- Model of `ProgramOption(optName, optDescr, optDefVal)` in its
`name == "help"` branch: the description is canned, the caller-supplied text
becomes `defaultValue`, and the flags are fixed to `-h`/`--help`. -/
def helpOption (aboutText : String) : ProgramOption :=
  ⟨"help", ["-h", "--help"], "print this help message", aboutText⟩

/-- Model of `ProgramOption(optName, optDescr, optDefVal)` in its
`name == "version"` branch: canned description, version string as
`defaultValue`, flags fixed to `-v`/`--version`. -/
def versionOption (versionText : String) : ProgramOption :=
  ⟨"version", ["-v", "--version"], "print program version", versionText⟩

/-- Association-list model of `std::map` lookup (`find`). -/
def findKey {β : Type} : List (String × β) → String → Option β
  | [], _ => none
  | (k, v) :: rest, key => if k = key then some v else findKey rest key

/-- Association-list model of `std::map::count(k) != 0`. -/
def hasKey {β : Type} (m : List (String × β)) (k : String) : Bool :=
  (findKey m k).isSome

/-- Association-list model of `std::map` insert-or-assign (`m[k] = v`). -/
def setKey {β : Type} : List (String × β) → String → β → List (String × β)
  | [], k, v => [(k, v)]
  | (k1, v1) :: rest, k, v =>
    if k1 = k then (k, v) :: rest else (k1, v1) :: setKey rest k v

/-- Model of reading `result[k]` on a `std::map<std::string, std::string>`:
an absent key reads as the empty string. -/
def getKey (m : List (String × String)) (k : String) : String :=
  (findKey m k).getD ""

/-- First character of a token is a dash.  For non-empty tokens this is
`arg.front() == '-'`; on a C string it is `argv[i][0] == '-'` (the empty
C string reads its NUL terminator, which is not a dash, giving `false`). -/
def firstIsDash (s : String) : Bool :=
  match s.data with
  | [] => false
  | c :: _ => c == '-'

/-- A single-quote character as a string (ASCII 39), used by the error
messages of the source. -/
def sQuote : String := String.mk [Char.ofNat 39]

/-- A string wrapped in single quotes, as the error messages print tokens. -/
def quoted (s : String) : String := sQuote ++ s ++ sQuote

/-- Text written to `std::cerr` on the missing-value path. -/
def missingValueMsg (arg : String) (opt : ProgramOption) : String :=
  "Error: missing value for option " ++ quoted arg ++ " (" ++ opt.description ++ ").\n"

/-- Text written to `std::cerr` on the unknown-option path. -/
def unknownOptionMsg (arg : String) : String :=
  "Error: unknown option " ++ quoted arg ++ "\n"

/-- Text written to `std::cerr` on the unexpected-value path. -/
def unexpectedValueMsg (arg : String) : String :=
  "Error: unexpected value " ++ quoted arg ++ ".\n"

/-- Text written to `std::cerr` on the missing-positional path. -/
def missingPositionalMsg (opt : ProgramOption) : String :=
  "Error: missing " ++ quoted opt.name ++ " value (" ++ opt.description ++ ").\n"

/-- Model of `cmdline::priv::extractProgramName` (non-Windows build): the
part of `argv0` after the last forward slash. -/
def extractProgramName (argv0 : String) : String :=
  (argv0.splitOn "/").getLastD argv0

/-- Join a list of strings onto an accumulator with a separator, mirroring
the `if (!acc.empty()) acc += sep; acc += f;` loops of the help formatter. -/
def joinSep (sep : String) : String → List String → String
  | acc, [] => acc
  | acc, f :: fs => joinSep sep (if acc = "" then f else acc ++ sep ++ f) fs

/-- The first loop of `displayHelpMessage`, accumulating
`(aboutMsg, allPositionals, helpAndVersion)` over the option list. -/
def helpAccum : List ProgramOption → String × String × String → String × String × String
  | [], acc => acc
  | opt :: rest, (aboutMsg, allPositionals, helpAndVersion) =>
    if opt.name = "help" then
      helpAccum rest (opt.defaultValue, allPositionals, joinSep " | " helpAndVersion opt.flags)
    else if opt.name = "version" then
      helpAccum rest (aboutMsg, allPositionals, joinSep " | " helpAndVersion opt.flags)
    else if opt.name ≠ "" then
      helpAccum rest (aboutMsg, allPositionals ++ " " ++ opt.name, helpAndVersion)
    else
      helpAccum rest (aboutMsg, allPositionals, helpAndVersion)

/-- Model of `std::string(n, ' ')`. -/
def spaces (n : Nat) : String := String.mk (List.replicate n ' ')

/-- One line of the options block of `displayHelpMessage` (empty for an
option without flags). -/
def optionLine (opt : ProgramOption) : String :=
  if opt.flags = [] then ""
  else
    "  " ++ joinSep ", " "" opt.flags
      ++ spaces (if (joinSep ", " "" opt.flags).length < 20
                 then 20 - (joinSep ", " "" opt.flags).length else 0)
      ++ opt.description ++ "\n"

/-- The options block of `displayHelpMessage`. -/
def optionLines (options : List ProgramOption) : String :=
  String.join (options.map optionLine)

/-- Model of `cmdline::priv::displayHelpMessage`: the full text it writes to
`std::cout`. -/
def helpMessage (argv0 : String) (options : List ProgramOption) : String :=
  "Usage: " ++ extractProgramName argv0 ++ " [OPTIONS]"
    ++ (helpAccum options ("", "", "")).2.1 ++ "\n"
  ++ (if (helpAccum options ("", "", "")).2.2 ≠ "" then
        "       " ++ extractProgramName argv0 ++ " ["
          ++ (helpAccum options ("", "", "")).2.2 ++ "]\n"
      else "")
  ++ "\n"
  ++ (if (helpAccum options ("", "", "")).1 ≠ "" then
        (helpAccum options ("", "", "")).1 ++ ".\n" ++ "\n"
      else "")
  ++ "Options:\n" ++ "\n"
  ++ optionLines options
  ++ "\n"

/-- Result of one call to `cmdline::parse`:
`ok` is a normal return carrying the result map; `exited code out err` is a
`std::exit(code)` after writing `out` to `std::cout` and `err` to
`std::cerr`; `assertFail` is a failed `assert`; `ub` is the undefined
`front()` access on an empty token. -/
inductive Outcome where
  | ok : List (String × String) → Outcome
  | exited : Nat → String → String → Outcome
  | assertFail : Outcome
  | ub : Outcome
deriving DecidableEq, Repr

/-- The inner loop of the flag-table pass of `cmdline::parse`: for each
alias of one option, assert it is not yet registered
(`assert(allFlags.count(name) == 0)`), register it, and seed
`result[name] = opt.defaultValue`. -/
def registerFlags (opt : ProgramOption) :
    List String → List (String × ProgramOption) → List (String × String) →
    Option (List (String × ProgramOption) × List (String × String))
  | [], table, result => some (table, result)
  | f :: fs, table, result =>
    if hasKey table f then none
    else registerFlags opt fs (setKey table f opt) (setKey result f opt.defaultValue)

/-- The flag-table pass of `cmdline::parse`: register every option's
aliases, seed defaults, and identify the positional option
(non-empty name, no flags, not `help`/`version`), asserting its uniqueness
(`assert(positionalOption.name.empty())`). -/
def buildTable :
    List ProgramOption → List (String × ProgramOption) → List (String × String) →
    ProgramOption →
    Option (List (String × ProgramOption) × List (String × String) × ProgramOption)
  | [], table, result, pos => some (table, result, pos)
  | opt :: opts, table, result, pos =>
    match registerFlags opt opt.flags table result with
    | none => none
    | some (table1, result1) =>
      if opt.name ≠ "" ∧ opt.flags = [] ∧ opt.name ≠ "help" ∧ opt.name ≠ "version" then
        if pos.name ≠ "" then none
        else buildTable opts table1 result1 opt
      else buildTable opts table1 result1 pos

/-- The token scan of `cmdline::parse` (`for (int i = 1; i < argc; ++i)`),
one token at a time; a value-taking option consumes the following token as
well (`++i` inside the loop body).  Because the body reads `argv[i + 1]` in
the value-taking branch, the loop body is translated twice: once for a last
token (clause `[arg]`, where `++i` makes `i == argc`) and once for a token
with a successor (clause `arg :: v :: rest2`); the two clauses are the same
source text specialised to the two shapes.  `priv::setValue` is inlined as
its assert (`assert(result[opt.name].empty())`) followed by the write. -/
def parseLoop (table : List (String × ProgramOption)) (options : List ProgramOption)
    (argv0 : String) :
    List String → List (String × String) → ProgramOption → Outcome
  | [], result, positionalOption =>
    if positionalOption.name ≠ "" then
      if getKey result positionalOption.name ≠ "" then .assertFail
      else .exited 1 (helpMessage argv0 options) (missingPositionalMsg positionalOption)
    else .ok result
  | [arg], result, positionalOption =>
    if arg = "" then .ub
    else if firstIsDash arg then
      match findKey table arg with
      | some opt =>
        if opt.name = "help" then .exited 0 (helpMessage argv0 options) ""
        else if opt.name = "version" then .exited 0 (opt.defaultValue ++ "\n") ""
        else if opt.name ≠ "" then .exited 1 "" (missingValueMsg arg opt)
        else
          if getKey result opt.name ≠ "" then .assertFail
          else parseLoop table options argv0 [] (setKey result opt.name "true") positionalOption
      | none => .exited 1 (helpMessage argv0 options) (unknownOptionMsg arg)
    else if positionalOption.name ≠ "" then
      if getKey result positionalOption.name ≠ "" then .assertFail
      else parseLoop table options argv0 [] (setKey result positionalOption.name arg) emptyOption
    else .exited 1 (helpMessage argv0 options) (unexpectedValueMsg arg)
  | arg :: v :: rest2, result, positionalOption =>
    if arg = "" then .ub
    else if firstIsDash arg then
      match findKey table arg with
      | some opt =>
        if opt.name = "help" then .exited 0 (helpMessage argv0 options) ""
        else if opt.name = "version" then .exited 0 (opt.defaultValue ++ "\n") ""
        else if opt.name ≠ "" then
          if firstIsDash v then .exited 1 "" (missingValueMsg arg opt)
          else if getKey result opt.name ≠ "" then .assertFail
          else parseLoop table options argv0 rest2 (setKey result opt.name v) positionalOption
        else
          if getKey result opt.name ≠ "" then .assertFail
          else parseLoop table options argv0 (v :: rest2) (setKey result opt.name "true") positionalOption
      | none => .exited 1 (helpMessage argv0 options) (unknownOptionMsg arg)
    else if positionalOption.name ≠ "" then
      if getKey result positionalOption.name ≠ "" then .assertFail
      else parseLoop table options argv0 (v :: rest2) (setKey result positionalOption.name arg) emptyOption
    else .exited 1 (helpMessage argv0 options) (unexpectedValueMsg arg)

/-- Model of `cmdline::parse(argc, argv, options)`: `argv0` is `argv[0]` and
`args` is `argv[1..argc-1]`. -/
def parse (argv0 : String) (args : List String) (options : List ProgramOption) : Outcome :=
  match buildTable options [] [] emptyOption with
  | none => .assertFail
  | some (table, result, pos) => parseLoop table options argv0 args result pos

/-- String concatenation is associative (proved via the underlying lists). -/
theorem strAppendAssoc (a b c : String) : (a ++ b) ++ c = a ++ (b ++ c) := by
  cases a with | mk da =>
  cases b with | mk db =>
  cases c with | mk dc =>
  show String.mk ((da ++ db) ++ dc) = String.mk (da ++ (db ++ dc))
  rw [List.append_assoc]

/-- Looking up a key just written returns the written value. -/
theorem findKey_setKey_self {β : Type} (m : List (String × β)) (k : String) (v : β) :
    findKey (setKey m k v) k = some v := by
  induction m with
  | nil => simp [setKey, findKey]
  | cons p rest ih =>
    obtain ⟨k1, v1⟩ := p
    by_cases h : k1 = k
    · simp [setKey, h, findKey]
    · simp [setKey, h, findKey, ih]

/-- Writing one key leaves lookups of another key unchanged. -/
theorem findKey_setKey_ne {β : Type} (m : List (String × β)) (k1 k : String) (v : β)
    (h : k1 ≠ k) : findKey (setKey m k1 v) k = findKey m k := by
  induction m with
  | nil => simp [setKey, findKey, h]
  | cons p rest ih =>
    obtain ⟨k2, v2⟩ := p
    by_cases h2 : k2 = k1
    · subst h2; simp [setKey, findKey, h]
    · simp [setKey, h2, findKey, ih]

/-- Reading a key just written returns the written value. -/
theorem getKey_setKey_self (m : List (String × String)) (k v : String) :
    getKey (setKey m k v) k = v := by
  simp [getKey, findKey_setKey_self]

/-- Writing one key leaves reads of another key unchanged. -/
theorem getKey_setKey_ne (m : List (String × String)) (k1 k v : String) (h : k1 ≠ k) :
    getKey (setKey m k1 v) k = getKey m k := by
  simp [getKey, findKey_setKey_ne m k1 k v h]

/-- A token whose first character is a dash is non-empty. -/
theorem ne_empty_of_firstIsDash {s : String} (h : firstIsDash s = true) : s ≠ "" := by
  intro he
  subst he
  exact absurd h (by decide)

/-- Registering flags preserves existing flag-table entries (a collision on
an existing key fails the `count == 0` assert instead of overwriting). -/
theorem registerFlags_preserve (opt x : ProgramOption) (f : String) :
    ∀ (fs : List String) (table : List (String × ProgramOption))
      (result : List (String × String)) table1 result1,
      findKey table f = some x →
      registerFlags opt fs table result = some (table1, result1) →
      findKey table1 f = some x := by
  intro fs
  induction fs with
  | nil =>
    intro table result t1 r1 hf hr
    simp only [registerFlags, Option.some.injEq, Prod.mk.injEq] at hr
    obtain ⟨h1, _⟩ := hr
    subst h1
    exact hf
  | cons f0 fs ih =>
    intro table result t1 r1 hf hr
    simp only [registerFlags] at hr
    by_cases hc : hasKey table f0
    · simp [hc] at hr
    · simp only [hc, if_false, Bool.false_eq_true] at hr
      have hne : f0 ≠ f := by
        intro he
        subst he
        simp [hasKey, hf] at hc
      exact ih _ _ _ _ (by rw [findKey_setKey_ne _ _ _ _ hne]; exact hf) hr

/-- After successfully registering an option's flags, each of those flags
looks up to that option. -/
theorem registerFlags_find_self (opt : ProgramOption) (f : String) :
    ∀ (fs : List String) table result t1 r1,
      registerFlags opt fs table result = some (t1, r1) → f ∈ fs →
      findKey t1 f = some opt := by
  intro fs
  induction fs with
  | nil =>
    intro _ _ _ _ _ hmem
    simp at hmem
  | cons f0 fs ih =>
    intro table result t1 r1 hr hmem
    simp only [registerFlags] at hr
    by_cases hc : hasKey table f0
    · simp [hc] at hr
    · simp only [hc, if_false, Bool.false_eq_true] at hr
      rcases List.mem_cons.mp hmem with he | hm
      · subst he
        exact registerFlags_preserve opt opt f fs _ _ _ _ (findKey_setKey_self _ _ _) hr
      · exact ih _ _ _ _ hr hm

/-- Building the rest of the table preserves existing flag-table entries. -/
theorem buildTable_preserve (x : ProgramOption) (f : String) :
    ∀ (opts : List ProgramOption) table result pos t r p,
      findKey table f = some x →
      buildTable opts table result pos = some (t, r, p) →
      findKey t f = some x := by
  intro opts
  induction opts with
  | nil =>
    intro table result pos t r p hf hb
    simp only [buildTable, Option.some.injEq, Prod.mk.injEq] at hb
    obtain ⟨h1, _⟩ := hb
    subst h1
    exact hf
  | cons opt opts ih =>
    intro table result pos t r p hf hb
    cases hreg : registerFlags opt opt.flags table result with
    | none =>
      simp only [buildTable, hreg] at hb
      exact Option.noConfusion hb
    | some pr =>
      obtain ⟨t1, r1⟩ := pr
      simp only [buildTable, hreg] at hb
      have hf1 : findKey t1 f = some x := registerFlags_preserve opt x f _ _ _ _ _ hf hreg
      by_cases hcond : opt.name ≠ "" ∧ opt.flags = [] ∧ opt.name ≠ "help" ∧ opt.name ≠ "version"
      · rw [if_pos hcond] at hb
        by_cases hp : pos.name ≠ ""
        · rw [if_pos hp] at hb
          exact absurd hb (by simp)
        · rw [if_neg hp] at hb
          exact ih _ _ _ _ _ _ hf1 hb
      · rw [if_neg hcond] at hb
        exact ih _ _ _ _ _ _ hf1 hb

/-- If the flag table is built successfully, every declared alias of every
option in the schema looks up to its declaring option. -/
theorem buildTable_find (opt : ProgramOption) (f : String) (hfl : f ∈ opt.flags) :
    ∀ (opts : List ProgramOption) table result pos t r p,
      buildTable opts table result pos = some (t, r, p) → opt ∈ opts →
      findKey t f = some opt := by
  intro opts
  induction opts with
  | nil =>
    intro _ _ _ _ _ _ _ hmem
    simp at hmem
  | cons o opts ih =>
    intro table result pos t r p hb hmem
    cases hreg : registerFlags o o.flags table result with
    | none =>
      simp only [buildTable, hreg] at hb
      exact Option.noConfusion hb
    | some pr =>
      obtain ⟨t1, r1⟩ := pr
      simp only [buildTable, hreg] at hb
      rcases List.mem_cons.mp hmem with he | hm
      · subst he
        have h1 : findKey t1 f = some opt :=
          registerFlags_find_self opt f opt.flags _ _ _ _ hreg hfl
        by_cases hcond : opt.name ≠ "" ∧ opt.flags = [] ∧ opt.name ≠ "help" ∧ opt.name ≠ "version"
        · rw [if_pos hcond] at hb
          by_cases hp : pos.name ≠ ""
          · rw [if_pos hp] at hb
            exact absurd hb (by simp)
          · rw [if_neg hp] at hb
            exact buildTable_preserve opt f _ _ _ _ _ _ _ h1 hb
        · rw [if_neg hcond] at hb
          exact buildTable_preserve opt f _ _ _ _ _ _ _ h1 hb
      · by_cases hcond : o.name ≠ "" ∧ o.flags = [] ∧ o.name ≠ "help" ∧ o.name ≠ "version"
        · rw [if_pos hcond] at hb
          by_cases hp : pos.name ≠ ""
          · rw [if_pos hp] at hb
            exact absurd hb (by simp)
          · rw [if_neg hp] at hb
            exact ih _ _ _ _ _ _ hb hm
        · rw [if_neg hcond] at hb
          exact ih _ _ _ _ _ _ hb hm

/-- Length arithmetic for one consumed token. -/
theorem length_cons_le {a : String} {rest : List String} {n : Nat}
    (h : (a :: rest).length ≤ n + 1) : rest.length ≤ n := by
  simp only [List.length_cons] at h
  omega

/-- Length arithmetic for two consumed tokens. -/
theorem length_cons_cons_le {a v : String} {rest2 : List String} {n : Nat}
    (h : (a :: v :: rest2).length ≤ n + 1) : rest2.length ≤ n := by
  simp only [List.length_cons] at h
  omega

/-- A normal return from the end-of-scan clause means the positional slot
was empty and the result map is returned unchanged. -/
theorem parseLoop_nil_ok (table : List (String × ProgramOption)) (options : List ProgramOption)
    (argv0 : String) (result : List (String × String)) (pos : ProgramOption)
    (res : List (String × String))
    (hok : parseLoop table options argv0 [] result pos = .ok res) :
    res = result ∧ pos.name = "" := by
  rw [parseLoop.eq_1] at hok
  by_cases hp : pos.name ≠ ""
  · rw [if_pos hp] at hok
    by_cases ha : getKey result pos.name ≠ ""
    · rw [if_pos ha] at hok
      exact Outcome.noConfusion hok
    · rw [if_neg ha] at hok
      exact Outcome.noConfusion hok
  · rw [if_neg hp] at hok
    injection hok with h
    exact ⟨h.symm, not_not.mp hp⟩

/-- Once a key holds a non-empty value, a normal completion of the scan
returns that key unchanged: any later write to it would fail the
`assert(result[opt.name].empty())` in `priv::setValue` instead. -/
theorem parseLoop_preserve (table : List (String × ProgramOption)) (options : List ProgramOption)
    (argv0 k w : String) (hw : w ≠ "") :
    ∀ (n : Nat) (l : List String), l.length ≤ n →
      ∀ (result : List (String × String)) (pos : ProgramOption) (res : List (String × String)),
        getKey result k = w →
        parseLoop table options argv0 l result pos = .ok res →
        getKey res k = w := by
  intro n
  induction n with
  | zero =>
    intro l hl result pos res hg hok
    have hnil : l = [] := List.length_eq_zero.mp (Nat.le_zero.mp hl)
    subst hnil
    obtain ⟨he, _⟩ := parseLoop_nil_ok table options argv0 result pos res hok
    subst he
    exact hg
  | succ n ih =>
    intro l hl result pos res hg hok
    cases l with
    | nil =>
      obtain ⟨he, _⟩ := parseLoop_nil_ok table options argv0 result pos res hok
      subst he
      exact hg
    | cons a rest =>
      cases rest with
      | nil =>
        rw [parseLoop.eq_2] at hok
        by_cases ha : a = ""
        · rw [if_pos ha] at hok
          exact Outcome.noConfusion hok
        rw [if_neg ha] at hok
        by_cases hd : firstIsDash a = true
        · rw [if_pos hd] at hok
          cases hfind : findKey table a with
          | none =>
            simp only [hfind] at hok
            exact Outcome.noConfusion hok
          | some opt =>
            simp only [hfind] at hok
            by_cases h1 : opt.name = "help"
            · rw [if_pos h1] at hok
              exact Outcome.noConfusion hok
            rw [if_neg h1] at hok
            by_cases h2 : opt.name = "version"
            · rw [if_pos h2] at hok
              exact Outcome.noConfusion hok
            rw [if_neg h2] at hok
            by_cases h3 : opt.name ≠ ""
            · rw [if_pos h3] at hok
              exact Outcome.noConfusion hok
            rw [if_neg h3] at hok
            by_cases hass : getKey result opt.name ≠ ""
            · rw [if_pos hass] at hok
              exact Outcome.noConfusion hok
            rw [if_neg hass] at hok
            have hkk : opt.name ≠ k := by
              intro he
              have hge : getKey result opt.name = "" := not_not.mp hass
              rw [he, hg] at hge
              exact hw hge
            exact ih [] (Nat.zero_le n) _ pos res
              (by rw [getKey_setKey_ne _ _ _ _ hkk]; exact hg) hok
        · rw [if_neg hd] at hok
          by_cases hp : pos.name ≠ ""
          · rw [if_pos hp] at hok
            by_cases hass : getKey result pos.name ≠ ""
            · rw [if_pos hass] at hok
              exact Outcome.noConfusion hok
            rw [if_neg hass] at hok
            have hkk : pos.name ≠ k := by
              intro he
              have hge : getKey result pos.name = "" := not_not.mp hass
              rw [he, hg] at hge
              exact hw hge
            exact ih [] (Nat.zero_le n) _ emptyOption res
              (by rw [getKey_setKey_ne _ _ _ _ hkk]; exact hg) hok
          · rw [if_neg hp] at hok
            exact Outcome.noConfusion hok
      | cons v rest2 =>
        rw [parseLoop.eq_3] at hok
        by_cases ha : a = ""
        · rw [if_pos ha] at hok
          exact Outcome.noConfusion hok
        rw [if_neg ha] at hok
        by_cases hd : firstIsDash a = true
        · rw [if_pos hd] at hok
          cases hfind : findKey table a with
          | none =>
            simp only [hfind] at hok
            exact Outcome.noConfusion hok
          | some opt =>
            simp only [hfind] at hok
            by_cases h1 : opt.name = "help"
            · rw [if_pos h1] at hok
              exact Outcome.noConfusion hok
            rw [if_neg h1] at hok
            by_cases h2 : opt.name = "version"
            · rw [if_pos h2] at hok
              exact Outcome.noConfusion hok
            rw [if_neg h2] at hok
            by_cases h3 : opt.name ≠ ""
            · rw [if_pos h3] at hok
              by_cases hnv : firstIsDash v = true
              · rw [if_pos hnv] at hok
                exact Outcome.noConfusion hok
              rw [if_neg hnv] at hok
              by_cases hass : getKey result opt.name ≠ ""
              · rw [if_pos hass] at hok
                exact Outcome.noConfusion hok
              rw [if_neg hass] at hok
              have hkk : opt.name ≠ k := by
                intro he
                have hge : getKey result opt.name = "" := not_not.mp hass
                rw [he, hg] at hge
                exact hw hge
              exact ih rest2 (length_cons_cons_le hl) _ pos res
                (by rw [getKey_setKey_ne _ _ _ _ hkk]; exact hg) hok
            · rw [if_neg h3] at hok
              by_cases hass : getKey result opt.name ≠ ""
              · rw [if_pos hass] at hok
                exact Outcome.noConfusion hok
              rw [if_neg hass] at hok
              have hkk : opt.name ≠ k := by
                intro he
                have hge : getKey result opt.name = "" := not_not.mp hass
                rw [he, hg] at hge
                exact hw hge
              exact ih (v :: rest2) (length_cons_le hl) _ pos res
                (by rw [getKey_setKey_ne _ _ _ _ hkk]; exact hg) hok
        · rw [if_neg hd] at hok
          by_cases hp : pos.name ≠ ""
          · rw [if_pos hp] at hok
            by_cases hass : getKey result pos.name ≠ ""
            · rw [if_pos hass] at hok
              exact Outcome.noConfusion hok
            rw [if_neg hass] at hok
            have hkk : pos.name ≠ k := by
              intro he
              have hge : getKey result pos.name = "" := not_not.mp hass
              rw [he, hg] at hge
              exact hw hge
            exact ih (v :: rest2) (length_cons_le hl) _ emptyOption res
              (by rw [getKey_setKey_ne _ _ _ _ hkk]; exact hg) hok
          · rw [if_neg hp] at hok
            exact Outcome.noConfusion hok

/-- Registering flags only writes default values under the flag aliases
being registered; any other key of the result map is untouched. -/
theorem registerFlags_get_preserve (opt : ProgramOption) (k : String) :
    ∀ (fs : List String) table result t1 r1, k ∉ fs →
      registerFlags opt fs table result = some (t1, r1) →
      getKey r1 k = getKey result k := by
  intro fs
  induction fs with
  | nil =>
    intro table result t1 r1 _ hr
    simp only [registerFlags, Option.some.injEq, Prod.mk.injEq] at hr
    obtain ⟨_, h2⟩ := hr
    subst h2
    rfl
  | cons f0 fs ih =>
    intro table result t1 r1 hk hr
    simp only [registerFlags] at hr
    by_cases hc : hasKey table f0
    · simp [hc] at hr
    · simp only [hc, if_false, Bool.false_eq_true] at hr
      have hne : f0 ≠ k := fun he => hk (he ▸ List.mem_cons_self f0 fs)
      rw [ih _ _ _ _ (fun hm => hk (List.mem_cons_of_mem f0 hm)) hr]
      exact getKey_setKey_ne _ _ _ _ hne

/-- The flag-table pass seeds default values only under declared flag
aliases: a key that is an alias of no option keeps its prior value. -/
theorem buildTable_get_preserve (k : String) :
    ∀ (opts : List ProgramOption) table result pos t r p,
      (∀ o ∈ opts, k ∉ o.flags) →
      buildTable opts table result pos = some (t, r, p) →
      getKey r k = getKey result k := by
  intro opts
  induction opts with
  | nil =>
    intro table result pos t r p _ hb
    simp only [buildTable, Option.some.injEq, Prod.mk.injEq] at hb
    obtain ⟨_, h2, _⟩ := hb
    subst h2
    rfl
  | cons opt opts ih =>
    intro table result pos t r p hk hb
    cases hreg : registerFlags opt opt.flags table result with
    | none =>
      simp only [buildTable, hreg] at hb
      exact Option.noConfusion hb
    | some pr =>
      obtain ⟨t1, r1⟩ := pr
      simp only [buildTable, hreg] at hb
      have h1 : getKey r1 k = getKey result k :=
        registerFlags_get_preserve opt k _ _ _ _ _
          (hk opt (List.mem_cons_self opt opts)) hreg
      have hkrest : ∀ o ∈ opts, k ∉ o.flags :=
        fun o hm => hk o (List.mem_cons_of_mem opt hm)
      by_cases hcond : opt.name ≠ "" ∧ opt.flags = [] ∧ opt.name ≠ "help" ∧ opt.name ≠ "version"
      · rw [if_pos hcond] at hb
        by_cases hp : pos.name ≠ ""
        · rw [if_pos hp] at hb
          exact absurd hb (by simp)
        · rw [if_neg hp] at hb
          rw [ih _ _ _ _ _ _ hkrest hb]
          exact h1
      · rw [if_neg hcond] at hb
        rw [ih _ _ _ _ _ _ hkrest hb]
        exact h1

/-- If every token scanned is non-empty, the scan never performs the
undefined `front()` access on an empty `std::string`. -/
theorem parseLoop_ne_ub (table : List (String × ProgramOption)) (options : List ProgramOption)
    (argv0 : String) :
    ∀ (n : Nat) (l : List String), l.length ≤ n → (∀ a ∈ l, a ≠ "") →
      ∀ (result : List (String × String)) (pos : ProgramOption),
        parseLoop table options argv0 l result pos ≠ .ub := by
  intro n
  induction n with
  | zero =>
    intro l hl hall result pos
    have hnil : l = [] := List.length_eq_zero.mp (Nat.le_zero.mp hl)
    subst hnil
    rw [parseLoop.eq_1]
    by_cases hp : pos.name ≠ ""
    · rw [if_pos hp]
      by_cases ha : getKey result pos.name ≠ ""
      · rw [if_pos ha]
        exact fun h => Outcome.noConfusion h
      · rw [if_neg ha]
        exact fun h => Outcome.noConfusion h
    · rw [if_neg hp]
      exact fun h => Outcome.noConfusion h
  | succ n ih =>
    intro l hl hall result pos
    cases l with
    | nil =>
      rw [parseLoop.eq_1]
      by_cases hp : pos.name ≠ ""
      · rw [if_pos hp]
        by_cases ha : getKey result pos.name ≠ ""
        · rw [if_pos ha]
          exact fun h => Outcome.noConfusion h
        · rw [if_neg ha]
          exact fun h => Outcome.noConfusion h
      · rw [if_neg hp]
        exact fun h => Outcome.noConfusion h
    | cons a rest =>
      have ha : a ≠ "" := hall a (List.mem_cons_self a rest)
      cases rest with
      | nil =>
        rw [parseLoop.eq_2, if_neg ha]
        by_cases hd : firstIsDash a = true
        · rw [if_pos hd]
          cases hfind : findKey table a with
          | none =>
            simp only [hfind]
            exact fun h => Outcome.noConfusion h
          | some opt =>
            simp only [hfind]
            by_cases h1 : opt.name = "help"
            · rw [if_pos h1]
              exact fun h => Outcome.noConfusion h
            rw [if_neg h1]
            by_cases h2 : opt.name = "version"
            · rw [if_pos h2]
              exact fun h => Outcome.noConfusion h
            rw [if_neg h2]
            by_cases h3 : opt.name ≠ ""
            · rw [if_pos h3]
              exact fun h => Outcome.noConfusion h
            rw [if_neg h3]
            by_cases hass : getKey result opt.name ≠ ""
            · rw [if_pos hass]
              exact fun h => Outcome.noConfusion h
            rw [if_neg hass]
            exact ih [] (Nat.zero_le n) (by intro x hx; simp at hx) _ pos
        · rw [if_neg hd]
          by_cases hp : pos.name ≠ ""
          · rw [if_pos hp]
            by_cases hass : getKey result pos.name ≠ ""
            · rw [if_pos hass]
              exact fun h => Outcome.noConfusion h
            rw [if_neg hass]
            exact ih [] (Nat.zero_le n) (by intro x hx; simp at hx) _ emptyOption
          · rw [if_neg hp]
            exact fun h => Outcome.noConfusion h
      | cons v rest2 =>
        have hall2 : ∀ x ∈ v :: rest2, x ≠ "" :=
          fun x hx => hall x (List.mem_cons_of_mem a hx)
        have hall3 : ∀ x ∈ rest2, x ≠ "" :=
          fun x hx => hall2 x (List.mem_cons_of_mem v hx)
        rw [parseLoop.eq_3, if_neg ha]
        by_cases hd : firstIsDash a = true
        · rw [if_pos hd]
          cases hfind : findKey table a with
          | none =>
            simp only [hfind]
            exact fun h => Outcome.noConfusion h
          | some opt =>
            simp only [hfind]
            by_cases h1 : opt.name = "help"
            · rw [if_pos h1]
              exact fun h => Outcome.noConfusion h
            rw [if_neg h1]
            by_cases h2 : opt.name = "version"
            · rw [if_pos h2]
              exact fun h => Outcome.noConfusion h
            rw [if_neg h2]
            by_cases h3 : opt.name ≠ ""
            · rw [if_pos h3]
              by_cases hnv : firstIsDash v = true
              · rw [if_pos hnv]
                exact fun h => Outcome.noConfusion h
              rw [if_neg hnv]
              by_cases hass : getKey result opt.name ≠ ""
              · rw [if_pos hass]
                exact fun h => Outcome.noConfusion h
              rw [if_neg hass]
              exact ih rest2 (length_cons_cons_le hl) hall3 _ pos
            · rw [if_neg h3]
              by_cases hass : getKey result opt.name ≠ ""
              · rw [if_pos hass]
                exact fun h => Outcome.noConfusion h
              rw [if_neg hass]
              exact ih (v :: rest2) (length_cons_le hl) hall2 _ pos
        · rw [if_neg hd]
          by_cases hp : pos.name ≠ ""
          · rw [if_pos hp]
            by_cases hass : getKey result pos.name ≠ ""
            · rw [if_pos hass]
              exact fun h => Outcome.noConfusion h
            rw [if_neg hass]
            exact ih (v :: rest2) (length_cons_le hl) hall2 _ emptyOption
          · rw [if_neg hp]
            exact fun h => Outcome.noConfusion h

/-- If every remaining token starts with a dash and the positional slot is
still unbound, the scan can never return normally: value-taking flags
reject dash-shaped values, bare tokens never occur, and the end-of-scan
positional check fails. -/
theorem parseLoop_all_dash_not_ok (table : List (String × ProgramOption))
    (options : List ProgramOption) (argv0 : String) :
    ∀ (n : Nat) (l : List String), l.length ≤ n → (∀ a ∈ l, firstIsDash a = true) →
      ∀ (result : List (String × String)) (pos : ProgramOption), pos.name ≠ "" →
        ∀ (res : List (String × String)),
          parseLoop table options argv0 l result pos ≠ .ok res := by
  intro n
  induction n with
  | zero =>
    intro l hl _ result pos hp res hok
    have hnil : l = [] := List.length_eq_zero.mp (Nat.le_zero.mp hl)
    subst hnil
    obtain ⟨_, hp2⟩ := parseLoop_nil_ok table options argv0 result pos res hok
    exact hp hp2
  | succ n ih =>
    intro l hl hall result pos hp res hok
    cases l with
    | nil =>
      obtain ⟨_, hp2⟩ := parseLoop_nil_ok table options argv0 result pos res hok
      exact hp hp2
    | cons a rest =>
      have hda : firstIsDash a = true := hall a (List.mem_cons_self a rest)
      have ha : a ≠ "" := ne_empty_of_firstIsDash hda
      cases rest with
      | nil =>
        rw [parseLoop.eq_2, if_neg ha, if_pos hda] at hok
        cases hfind : findKey table a with
        | none =>
          simp only [hfind] at hok
          exact Outcome.noConfusion hok
        | some opt =>
          simp only [hfind] at hok
          by_cases h1 : opt.name = "help"
          · rw [if_pos h1] at hok
            exact Outcome.noConfusion hok
          rw [if_neg h1] at hok
          by_cases h2 : opt.name = "version"
          · rw [if_pos h2] at hok
            exact Outcome.noConfusion hok
          rw [if_neg h2] at hok
          by_cases h3 : opt.name ≠ ""
          · rw [if_pos h3] at hok
            exact Outcome.noConfusion hok
          rw [if_neg h3] at hok
          by_cases hass : getKey result opt.name ≠ ""
          · rw [if_pos hass] at hok
            exact Outcome.noConfusion hok
          rw [if_neg hass] at hok
          exact ih [] (Nat.zero_le n) (by intro x hx; simp at hx) _ pos hp res hok
      | cons v rest2 =>
        have hdv : firstIsDash v = true :=
          hall v (List.mem_cons_of_mem a (List.mem_cons_self v rest2))
        have hall2 : ∀ x ∈ v :: rest2, firstIsDash x = true :=
          fun x hx => hall x (List.mem_cons_of_mem a hx)
        have hall3 : ∀ x ∈ rest2, firstIsDash x = true :=
          fun x hx => hall2 x (List.mem_cons_of_mem v hx)
        rw [parseLoop.eq_3, if_neg ha, if_pos hda] at hok
        cases hfind : findKey table a with
        | none =>
          simp only [hfind] at hok
          exact Outcome.noConfusion hok
        | some opt =>
          simp only [hfind] at hok
          by_cases h1 : opt.name = "help"
          · rw [if_pos h1] at hok
            exact Outcome.noConfusion hok
          rw [if_neg h1] at hok
          by_cases h2 : opt.name = "version"
          · rw [if_pos h2] at hok
            exact Outcome.noConfusion hok
          rw [if_neg h2] at hok
          by_cases h3 : opt.name ≠ ""
          · rw [if_pos h3, if_pos hdv] at hok
            exact Outcome.noConfusion hok
          rw [if_neg h3] at hok
          by_cases hass : getKey result opt.name ≠ ""
          · rw [if_pos hass] at hok
            exact Outcome.noConfusion hok
          rw [if_neg hass] at hok
          exact ih (v :: rest2) (length_cons_le hl) hall2 _ pos hp res hok

/-- Core of the value-binding argument: if the scan is currently at some
position before an occurrence of a registered value-taking flag `f`
followed by a non-empty value token `v`, and the whole scan returns
normally, then the option's key holds exactly `v` in the returned map. -/
theorem parseLoop_value_bind (table : List (String × ProgramOption))
    (options : List ProgramOption) (argv0 : String) (opt : ProgramOption) (f : String)
    (hlook : findKey table f = some opt) (hdash : firstIsDash f = true)
    (h1 : opt.name ≠ "help") (h2 : opt.name ≠ "version") (h3 : opt.name ≠ "")
    (v : String) (hv : v ≠ "") :
    ∀ (n : Nat) (pre : List String), pre.length ≤ n →
      ∀ (suf : List String) (result : List (String × String)) (pos : ProgramOption)
        (res : List (String × String)),
        parseLoop table options argv0 (pre ++ f :: v :: suf) result pos = .ok res →
        getKey res opt.name = v := by
  have base : ∀ (suf : List String) (result : List (String × String)) (pos : ProgramOption)
      (res : List (String × String)),
      parseLoop table options argv0 (f :: v :: suf) result pos = .ok res →
      getKey res opt.name = v := by
    intro suf result pos res hok
    rw [parseLoop.eq_3, if_neg (ne_empty_of_firstIsDash hdash), if_pos hdash] at hok
    simp only [hlook] at hok
    rw [if_neg h1, if_neg h2, if_pos h3] at hok
    by_cases hnv : firstIsDash v = true
    · rw [if_pos hnv] at hok
      exact Outcome.noConfusion hok
    rw [if_neg hnv] at hok
    by_cases hass : getKey result opt.name ≠ ""
    · rw [if_pos hass] at hok
      exact Outcome.noConfusion hok
    rw [if_neg hass] at hok
    exact parseLoop_preserve table options argv0 opt.name v hv suf.length suf
      (Nat.le_refl _) _ pos res (getKey_setKey_self _ _ _) hok
  intro n
  induction n with
  | zero =>
    intro pre hl suf result pos res hok
    have hnil : pre = [] := List.length_eq_zero.mp (Nat.le_zero.mp hl)
    subst hnil
    exact base suf result pos res hok
  | succ n ih =>
    intro pre hl suf result pos res hok
    cases pre with
    | nil => exact base suf result pos res hok
    | cons a pre1 =>
      by_cases ha : a = ""
      · cases pre1 with
        | nil =>
          rw [List.cons_append, List.nil_append, parseLoop.eq_3, if_pos ha] at hok
          exact Outcome.noConfusion hok
        | cons b pre2 =>
          rw [List.cons_append, List.cons_append, parseLoop.eq_3, if_pos ha] at hok
          exact Outcome.noConfusion hok
      cases pre1 with
      | nil =>
        rw [List.cons_append, List.nil_append, parseLoop.eq_3, if_neg ha] at hok
        by_cases hd : firstIsDash a = true
        · rw [if_pos hd] at hok
          cases hfind : findKey table a with
          | none =>
            simp only [hfind] at hok
            exact Outcome.noConfusion hok
          | some o =>
            simp only [hfind] at hok
            by_cases ho1 : o.name = "help"
            · rw [if_pos ho1] at hok
              exact Outcome.noConfusion hok
            rw [if_neg ho1] at hok
            by_cases ho2 : o.name = "version"
            · rw [if_pos ho2] at hok
              exact Outcome.noConfusion hok
            rw [if_neg ho2] at hok
            by_cases ho3 : o.name ≠ ""
            · rw [if_pos ho3, if_pos hdash] at hok
              exact Outcome.noConfusion hok
            rw [if_neg ho3] at hok
            by_cases hass : getKey result o.name ≠ ""
            · rw [if_pos hass] at hok
              exact Outcome.noConfusion hok
            rw [if_neg hass] at hok
            exact base (suf) _ pos res hok
        · rw [if_neg hd] at hok
          by_cases hp : pos.name ≠ ""
          · rw [if_pos hp] at hok
            by_cases hass : getKey result pos.name ≠ ""
            · rw [if_pos hass] at hok
              exact Outcome.noConfusion hok
            rw [if_neg hass] at hok
            exact base suf _ emptyOption res hok
          · rw [if_neg hp] at hok
            exact Outcome.noConfusion hok
      | cons b pre2 =>
        rw [List.cons_append, List.cons_append, parseLoop.eq_3, if_neg ha] at hok
        by_cases hd : firstIsDash a = true
        · rw [if_pos hd] at hok
          cases hfind : findKey table a with
          | none =>
            simp only [hfind] at hok
            exact Outcome.noConfusion hok
          | some o =>
            simp only [hfind] at hok
            by_cases ho1 : o.name = "help"
            · rw [if_pos ho1] at hok
              exact Outcome.noConfusion hok
            rw [if_neg ho1] at hok
            by_cases ho2 : o.name = "version"
            · rw [if_pos ho2] at hok
              exact Outcome.noConfusion hok
            rw [if_neg ho2] at hok
            by_cases ho3 : o.name ≠ ""
            · rw [if_pos ho3] at hok
              by_cases hnb : firstIsDash b = true
              · rw [if_pos hnb] at hok
                exact Outcome.noConfusion hok
              rw [if_neg hnb] at hok
              by_cases hass : getKey result o.name ≠ ""
              · rw [if_pos hass] at hok
                exact Outcome.noConfusion hok
              rw [if_neg hass] at hok
              exact ih pre2 (length_cons_cons_le hl) suf _ pos res hok
            · rw [if_neg ho3] at hok
              by_cases hass : getKey result o.name ≠ ""
              · rw [if_pos hass] at hok
                exact Outcome.noConfusion hok
              rw [if_neg hass] at hok
              exact ih (b :: pre2) (length_cons_le hl) suf _ pos res hok
        · rw [if_neg hd] at hok
          by_cases hp : pos.name ≠ ""
          · rw [if_pos hp] at hok
            by_cases hass : getKey result pos.name ≠ ""
            · rw [if_pos hass] at hok
              exact Outcome.noConfusion hok
            rw [if_neg hass] at hok
            exact ih (b :: pre2) (length_cons_le hl) suf _ emptyOption res hok
          · rw [if_neg hp] at hok
            exact Outcome.noConfusion hok

/-- C1: evaluation of the code at a schema with one pure flag `-f`
(default `"false"`) and input `["-f"]`.  `priv::setValue` writes
`result[opt.name]`, and a pure flag's `name` is empty, so the literal
`"true"` is stored under the key `""` while the flag's own key `"-f"`
keeps its default even though `-f` was passed — contradicting both the
claim and the usage example in the header's own documentation
(`args["--verbose"] == "true"`). -/
theorem pure_flag_value_lands_on_empty_key :
    parse "prog" ["-f"] [⟨"", ["-f"], "a flag", "false"⟩]
      = .ok [("-f", "false"), ("", "true")]
    ∧ getKey [("-f", "false"), ("", "true")] "-f" = "false"
    ∧ getKey [("-f", "false"), ("", "true")] "" = "true" :=
  ⟨rfl, rfl, rfl⟩

/-- C2 (counterexample): with schema `{name n, flags [-x]}` and input
`["-x", "", "-x", "b"]` the parse returns normally, the flag token `-x`
occurs at index 0 immediately followed by the token `""`, yet the
resolved value for the option is `"b"` (the empty first binding lets the
`assert(result[opt.name].empty())` pass again, so the second occurrence
rebinds the key), refuting the claim for the first occurrence. -/
theorem value_flag_rebind_counterexample :
    parse "prog" ["-x", "", "-x", "b"] [⟨"n", ["-x"], "an option", ""⟩]
      = .ok [("-x", ""), ("n", "b")]
    ∧ ["-x", "", "-x", "b"].get? 0 = some "-x"
    ∧ ["-x", "", "-x", "b"].get? 1 = some ""
    ∧ getKey [("-x", ""), ("n", "b")] "n" = "b"
    ∧ ("b" : String) ≠ "" :=
  ⟨rfl, rfl, rfl, rfl, by decide⟩

/-- C2 (amended): for every schema and argument vector on which parse
returns normally, whenever a value-taking option's dash-prefixed flag
token occurs in the input immediately followed by a non-empty token, the
resolved value for that option (under its canonical key, its name) equals
that following token. -/
theorem value_flag_binds_nonempty_following (options : List ProgramOption) (argv0 : String)
    (opt : ProgramOption) (hmem : opt ∈ options) (f : String) (hf : f ∈ opt.flags)
    (hdash : firstIsDash f = true)
    (h3 : opt.name ≠ "") (h1 : opt.name ≠ "help") (h2 : opt.name ≠ "version")
    (pre suf : List String) (v : String) (hv : v ≠ "")
    (res : List (String × String))
    (hok : parse argv0 (pre ++ f :: v :: suf) options = .ok res) :
    getKey res opt.name = v := by
  cases hbt : buildTable options [] [] emptyOption with
  | none =>
    simp only [parse, hbt] at hok
    exact Outcome.noConfusion hok
  | some st =>
    obtain ⟨table, result0, pos0⟩ := st
    simp only [parse, hbt] at hok
    have hlook : findKey table f = some opt :=
      buildTable_find opt f hf options [] [] emptyOption table result0 pos0 hbt hmem
    exact parseLoop_value_bind table options argv0 opt f hlook hdash h1 h2 h3 v hv
      pre.length pre (Nat.le_refl _) suf result0 pos0 res hok

/-- C2 (witness): the amended theorem applied to the schema
`[{name n, flags [-x]}]` and input `["-x", "a"]`. -/
theorem value_flag_binds_nonempty_following_witness :
    getKey [("-x", ""), ("n", "a")] "n" = "a" :=
  value_flag_binds_nonempty_following [⟨"n", ["-x"], "d", ""⟩] "prog"
    ⟨"n", ["-x"], "d", ""⟩ (by decide) "-x" (by decide) (by decide)
    (by decide) (by decide) (by decide) [] [] "a" (by decide)
    [("-x", ""), ("n", "a")] rfl

/-- C3 (counterexample): the argument vector `["-h", "-x"]` has the
recognized value-taking flag token `-x` as its last token, but parse does
not print a missing-value error or exit with code 1: the earlier `-h`
short-circuits to the help message and exit code 0. -/
theorem missing_value_preempted_by_help :
    parse "prog" ["-h", "-x"] [helpOption "about", ⟨"n", ["-x"], "an option", ""⟩]
      = .exited 0 (helpMessage "prog" [helpOption "about", ⟨"n", ["-x"], "an option", ""⟩]) "" :=
  rfl

/-- C3 (amended): whenever the left-to-right scan reaches a recognized
value-taking flag token that is the last token or is immediately followed
by a token whose first character is a dash, parse writes the
missing-value message to standard error and exits with code 1 (standard
output gets nothing on this path); the exit discards the pending state, so
no value is bound for that flag occurrence. -/
theorem missing_value_error_at_scan (table : List (String × ProgramOption))
    (options : List ProgramOption) (argv0 : String) (result : List (String × String))
    (pos : ProgramOption) (f : String) (opt : ProgramOption)
    (hdash : firstIsDash f = true) (hlook : findKey table f = some opt)
    (h1 : opt.name ≠ "help") (h2 : opt.name ≠ "version") (h3 : opt.name ≠ "")
    (tail : List String)
    (htail : tail = [] ∨ ∃ v rest2, tail = v :: rest2 ∧ firstIsDash v = true) :
    parseLoop table options argv0 (f :: tail) result pos
      = .exited 1 "" (missingValueMsg f opt) := by
  rcases htail with h | ⟨v, rest2, ht, hdv⟩
  · subst h
    rw [parseLoop.eq_2, if_neg (ne_empty_of_firstIsDash hdash), if_pos hdash]
    simp only [hlook]
    rw [if_neg h1, if_neg h2, if_pos h3]
  · subst ht
    rw [parseLoop.eq_3, if_neg (ne_empty_of_firstIsDash hdash), if_pos hdash]
    simp only [hlook]
    rw [if_neg h1, if_neg h2, if_pos h3, if_pos hdv]

/-- C3 (witness): the amended theorem applied with `-x` as the last
remaining token. -/
theorem missing_value_error_at_scan_witness :
    parseLoop [("-x", ⟨"n", ["-x"], "an option", ""⟩)] [⟨"n", ["-x"], "an option", ""⟩]
      "prog" ["-x"] [] emptyOption
      = .exited 1 "" (missingValueMsg "-x" ⟨"n", ["-x"], "an option", ""⟩) :=
  missing_value_error_at_scan [("-x", ⟨"n", ["-x"], "an option", ""⟩)]
    [⟨"n", ["-x"], "an option", ""⟩] "prog" [] emptyOption "-x"
    ⟨"n", ["-x"], "an option", ""⟩ (by decide) rfl (by decide) (by decide) (by decide)
    [] (Or.inl rfl)

/-- The reserved version option's name is the literal `"version"`. -/
theorem versionOption_name (s : String) : (versionOption s).name = "version" := rfl

/-- C4: for every schema declaring the reserved help and version options
(and whose flag table builds successfully), as soon as the scan reaches a
help alias (`-h`/`--help`) or a version alias (`-v`/`--version`) — in any
intermediate scan state and with any tokens remaining — parse prints the
help message (respectively the version string) to standard output and
exits with code 0. -/
theorem help_version_short_circuit (options : List ProgramOption) (about ver argv0 : String)
    (table : List (String × ProgramOption)) (result0 : List (String × String))
    (pos0 : ProgramOption)
    (hb : buildTable options [] [] emptyOption = some (table, result0, pos0))
    (hh : helpOption about ∈ options) (hvm : versionOption ver ∈ options)
    (a : String) (rest : List String) (result : List (String × String)) (pos : ProgramOption) :
    ((a = "-h" ∨ a = "--help") →
      parseLoop table options argv0 (a :: rest) result pos
        = .exited 0 (helpMessage argv0 options) "")
    ∧ ((a = "-v" ∨ a = "--version") →
      parseLoop table options argv0 (a :: rest) result pos
        = .exited 0 (ver ++ "\n") "") := by
  constructor
  · intro hcase
    have key : ∀ (al : String), al ∈ (helpOption about).flags → firstIsDash al = true →
        parseLoop table options argv0 (al :: rest) result pos
          = .exited 0 (helpMessage argv0 options) "" := by
      intro al hal hdal
      have hlook : findKey table al = some (helpOption about) :=
        buildTable_find (helpOption about) al hal options [] [] emptyOption
          table result0 pos0 hb hh
      cases rest with
      | nil =>
        rw [parseLoop.eq_2, if_neg (ne_empty_of_firstIsDash hdal), if_pos hdal]
        simp only [hlook]
        rw [if_pos (show (helpOption about).name = "help" from rfl)]
      | cons v rest2 =>
        rw [parseLoop.eq_3, if_neg (ne_empty_of_firstIsDash hdal), if_pos hdal]
        simp only [hlook]
        rw [if_pos (show (helpOption about).name = "help" from rfl)]
    rcases hcase with h | h
    · subst h
      exact key "-h" (List.mem_cons_self _ _) (by decide)
    · subst h
      exact key "--help" (List.mem_cons_of_mem _ (List.mem_cons_self _ _)) (by decide)
  · intro hcase
    have key : ∀ (al : String), al ∈ (versionOption ver).flags → firstIsDash al = true →
        parseLoop table options argv0 (al :: rest) result pos
          = .exited 0 (ver ++ "\n") "" := by
      intro al hal hdal
      have hlook : findKey table al = some (versionOption ver) :=
        buildTable_find (versionOption ver) al hal options [] [] emptyOption
          table result0 pos0 hb hvm
      cases rest with
      | nil =>
        rw [parseLoop.eq_2, if_neg (ne_empty_of_firstIsDash hdal), if_pos hdal]
        simp only [hlook]
        rw [if_neg (show (versionOption ver).name ≠ "help" from by rw [versionOption_name]; decide),
          if_pos (show (versionOption ver).name = "version" from rfl)]
        rfl
      | cons v rest2 =>
        rw [parseLoop.eq_3, if_neg (ne_empty_of_firstIsDash hdal), if_pos hdal]
        simp only [hlook]
        rw [if_neg (show (versionOption ver).name ≠ "help" from by rw [versionOption_name]; decide),
          if_pos (show (versionOption ver).name = "version" from rfl)]
        rfl
    rcases hcase with h | h
    · subst h
      exact key "-v" (List.mem_cons_self _ _) (by decide)
    · subst h
      exact key "--version" (List.mem_cons_of_mem _ (List.mem_cons_self _ _)) (by decide)

/-- C4 (witness): the theorem applied at `-h` with a token remaining after
it that would otherwise be an unknown-option error. -/
theorem help_version_short_circuit_witness :
    parseLoop
      [("-h", helpOption "about"), ("--help", helpOption "about"),
       ("-v", versionOption "1.0"), ("--version", versionOption "1.0")]
      [helpOption "about", versionOption "1.0"] "prog" ["-h", "--bogus"] [] emptyOption
      = .exited 0 (helpMessage "prog" [helpOption "about", versionOption "1.0"]) "" :=
  (help_version_short_circuit [helpOption "about", versionOption "1.0"] "about" "1.0" "prog"
    [("-h", helpOption "about"), ("--help", helpOption "about"),
     ("-v", versionOption "1.0"), ("--version", versionOption "1.0")]
    [("-h", "about"), ("--help", "about"), ("-v", "1.0"), ("--version", "1.0")]
    emptyOption rfl (by decide) (by decide) "-h" ["--bogus"] [] emptyOption).1
    (Or.inl rfl)

/-- C5 (counterexample): the schema declares a positional option `input`
with no default, and the argument vector `["-h"]` contains no bare token;
yet parse does not print an error mentioning `input` or exit with code 1 —
the help flag short-circuits to standard output and exit code 0. -/
theorem missing_positional_preempted_by_help :
    parse "prog" ["-h"] [helpOption "about", ⟨"input", [], "the input file", ""⟩]
      = .exited 0
          (helpMessage "prog" [helpOption "about", ⟨"input", [], "the input file", ""⟩]) "" :=
  rfl

/-- C5 (amended): for a schema whose table pass identifies a positional
option (whose name is no option's alias), and an argument vector with no
bare token, parse never returns a resolved mapping; and when the scan
reaches the end of the input — as on the empty argument vector — it exits
with code 1, printing to standard error a message that contains the
positional option's name and printing the usage text to standard
output. -/
theorem missing_positional_error (options : List ProgramOption) (argv0 : String)
    (table : List (String × ProgramOption)) (result0 : List (String × String))
    (pos0 : ProgramOption)
    (hb : buildTable options [] [] emptyOption = some (table, result0, pos0))
    (hpos : pos0.name ≠ "")
    (hnf : ∀ o ∈ options, pos0.name ∉ o.flags)
    (args : List String) (hargs : ∀ a ∈ args, firstIsDash a = true) :
    (∀ res, parse argv0 args options ≠ .ok res)
    ∧ parse argv0 [] options
        = .exited 1 (helpMessage argv0 options) (missingPositionalMsg pos0)
    ∧ (∃ x y, missingPositionalMsg pos0 = x ++ pos0.name ++ y) := by
  have hseed : getKey result0 pos0.name = "" := by
    have h := buildTable_get_preserve pos0.name options [] [] emptyOption
      table result0 pos0 hnf hb
    rw [h]
    rfl
  refine ⟨?_, ?_, ?_⟩
  · intro res
    simp only [parse, hb]
    exact parseLoop_all_dash_not_ok table options argv0 args.length args
      (Nat.le_refl _) hargs result0 pos0 hpos res
  · simp only [parse, hb]
    rw [parseLoop.eq_1, if_pos hpos, if_neg (not_not_intro hseed)]
  · exact ⟨"Error: missing " ++ sQuote,
      sQuote ++ " value (" ++ pos0.description ++ ").\n", by
        simp only [missingPositionalMsg, quoted, strAppendAssoc]⟩

/-- C5 (witness): the amended theorem applied to the schema
`[help, positional inp]` with the all-dash vector `["-h"]`, projected to
the empty-input exit behaviour. -/
theorem missing_positional_error_witness :
    parse "prog" [] [helpOption "about2", ⟨"inp", [], "descr", ""⟩]
      = .exited 1 (helpMessage "prog" [helpOption "about2", ⟨"inp", [], "descr", ""⟩])
          (missingPositionalMsg ⟨"inp", [], "descr", ""⟩) :=
  (missing_positional_error [helpOption "about2", ⟨"inp", [], "descr", ""⟩] "prog"
    [("-h", helpOption "about2"), ("--help", helpOption "about2")]
    [("-h", "about2"), ("--help", "about2")] ⟨"inp", [], "descr", ""⟩
    rfl (by decide) (by decide) ["-h"] (by decide)).2.1

/-- C6 (counterexample): the argument vector `["-h", "--bogus"]` contains
the unregistered dash token `--bogus`, but parse exits with code 0 after
printing help: the earlier help flag short-circuits, so the claim fails
for this vector. -/
theorem unknown_option_preempted_by_help :
    parse "prog" ["-h", "--bogus"] [helpOption "ab"]
      = .exited 0 (helpMessage "prog" [helpOption "ab"]) "" :=
  rfl

/-- C6 (amended): whenever the left-to-right scan reaches a token whose
first character is a dash and that is not registered in the flag table,
parse writes to standard error a message containing that literal token,
writes the usage text to standard output, and exits with code 1. -/
theorem unknown_option_error_at_scan (table : List (String × ProgramOption))
    (options : List ProgramOption) (argv0 : String) (result : List (String × String))
    (pos : ProgramOption) (a : String) (rest : List String)
    (hdash : firstIsDash a = true) (hlook : findKey table a = none) :
    parseLoop table options argv0 (a :: rest) result pos
      = .exited 1 (helpMessage argv0 options) (unknownOptionMsg a)
    ∧ (∃ x y, unknownOptionMsg a = x ++ a ++ y) := by
  constructor
  · cases rest with
    | nil =>
      rw [parseLoop.eq_2, if_neg (ne_empty_of_firstIsDash hdash), if_pos hdash]
      simp only [hlook]
    | cons v rest2 =>
      rw [parseLoop.eq_3, if_neg (ne_empty_of_firstIsDash hdash), if_pos hdash]
      simp only [hlook]
  · exact ⟨"Error: unknown option " ++ sQuote, sQuote ++ "\n", by
      simp only [unknownOptionMsg, quoted, strAppendAssoc]⟩

/-- C6 (witness): the amended theorem applied to an empty flag table and
the token `--bogus`. -/
theorem unknown_option_error_at_scan_witness :
    parseLoop [] [] "prog" ["--bogus"] [] emptyOption
      = .exited 1 (helpMessage "prog" []) (unknownOptionMsg "--bogus") :=
  (unknown_option_error_at_scan [] [] "prog" [] emptyOption "--bogus" []
    (by decide) rfl).1

/-- C7: a bare token (non-empty, not dash-prefixed) reaching the scan
binds to the positional slot only when that slot is still open, and the
binding closes the slot (the loop continues with the empty
`ProgramOption{}`), so at most one bare token is ever accepted; a bare
token reaching the scan with the slot closed — a second bare token, or
the first when no positional option exists — makes parse print an
unexpected-value error naming that token to standard error, print the
usage text to standard output, and exit with code 1. -/
theorem single_positional_slot (table : List (String × ProgramOption))
    (options : List ProgramOption) (argv0 : String) (result : List (String × String))
    (pos : ProgramOption) (a : String) (rest : List String)
    (ha : a ≠ "") (hnd : firstIsDash a = false) :
    (pos.name = "" →
      parseLoop table options argv0 (a :: rest) result pos
        = .exited 1 (helpMessage argv0 options) (unexpectedValueMsg a)
      ∧ (∃ x y, unexpectedValueMsg a = x ++ a ++ y))
    ∧ (pos.name ≠ "" → getKey result pos.name = "" →
      parseLoop table options argv0 (a :: rest) result pos
        = parseLoop table options argv0 rest (setKey result pos.name a) emptyOption) := by
  have hnd2 : ¬ firstIsDash a = true := by
    rw [hnd]
    exact Bool.false_ne_true
  constructor
  · intro hp
    have hp2 : ¬ pos.name ≠ "" := not_not_intro hp
    constructor
    · cases rest with
      | nil => rw [parseLoop.eq_2, if_neg ha, if_neg hnd2, if_neg hp2]
      | cons v rest2 => rw [parseLoop.eq_3, if_neg ha, if_neg hnd2, if_neg hp2]
    · exact ⟨"Error: unexpected value " ++ sQuote, sQuote ++ ".\n", by
        simp only [unexpectedValueMsg, quoted, strAppendAssoc]⟩
  · intro hp hass
    have hass2 : ¬ getKey result pos.name ≠ "" := not_not_intro hass
    cases rest with
    | nil => rw [parseLoop.eq_2, if_neg ha, if_neg hnd2, if_pos hp, if_neg hass2]
    | cons v rest2 => rw [parseLoop.eq_3, if_neg ha, if_neg hnd2, if_pos hp, if_neg hass2]

/-- C7 (witness): the error half of the theorem applied to a bare token
with no positional option declared. -/
theorem single_positional_slot_witness :
    parseLoop [] [] "prog" ["extra"] [] emptyOption
      = .exited 1 (helpMessage "prog" []) (unexpectedValueMsg "extra") :=
  ((single_positional_slot [] [] "prog" [] emptyOption "extra" []
    (by decide) (by decide)).1 rfl).1

/-- C8 (counterexample): the schema's positional option `input` has the
non-empty default `"default.txt"` and the input `["-h"]` omits the
positional token, yet parse does not produce the missing-value error and
exit code 1: the help flag exits with code 0 first, so the claim's
universal quantification over argument vectors fails. -/
theorem positional_default_preempted_by_help :
    parse "prog" ["-h"] [helpOption "tool", ⟨"input", [], "the input file", "default.txt"⟩]
      = .exited 0
          (helpMessage "prog"
            [helpOption "tool", ⟨"input", [], "the input file", "default.txt"⟩]) "" :=
  rfl

/-- C8 (amended): default values are seeded into the result mapping only
under flag aliases, never under the positional option's name (whose
default may be non-empty); and whenever the scan reaches the end of the
input with the positional unbound — as on the empty argument vector — the
missing-value error and exit code 1 happen regardless of that default. -/
theorem positional_default_never_applied (options : List ProgramOption) (argv0 : String)
    (table : List (String × ProgramOption)) (result0 : List (String × String))
    (pos0 : ProgramOption)
    (hb : buildTable options [] [] emptyOption = some (table, result0, pos0))
    (hpos : pos0.name ≠ "") (hdef : pos0.defaultValue ≠ "")
    (hnf : ∀ o ∈ options, pos0.name ∉ o.flags) :
    getKey result0 pos0.name = ""
    ∧ parse argv0 [] options
        = .exited 1 (helpMessage argv0 options) (missingPositionalMsg pos0) := by
  have hseed : getKey result0 pos0.name = "" := by
    have h := buildTable_get_preserve pos0.name options [] [] emptyOption
      table result0 pos0 hnf hb
    rw [h]
    rfl
  refine ⟨hseed, ?_⟩
  simp only [parse, hb]
  rw [parseLoop.eq_1, if_pos hpos, if_neg (not_not_intro hseed)]

/-- C8 (witness): the amended theorem applied to a schema whose positional
option `file` carries the non-empty default `"fallback"`. -/
theorem positional_default_never_applied_witness :
    getKey [] "file" = ""
    ∧ parse "prog" [] [⟨"file", [], "a file", "fallback"⟩]
        = .exited 1 (helpMessage "prog" [⟨"file", [], "a file", "fallback"⟩])
            (missingPositionalMsg ⟨"file", [], "a file", "fallback"⟩) :=
  positional_default_never_applied [⟨"file", [], "a file", "fallback"⟩] "prog"
    [] [] ⟨"file", [], "a file", "fallback"⟩ rfl (by decide) (by decide) (by decide)

/-- C9: a recognized value-taking flag followed by the empty-string token
is not a missing-value error (the check `argv[i][0] == '-'` reads the NUL
terminator of the empty C string, which is not a dash): the empty string
is consumed and bound as the option's explicit value, and since
`priv::setValue` required the key to be empty beforehand, the resulting
map reads identically at that key to one where the option was never set. -/
theorem empty_value_accepted (table : List (String × ProgramOption))
    (options : List ProgramOption) (argv0 : String) (result : List (String × String))
    (pos : ProgramOption) (f : String) (opt : ProgramOption)
    (hdash : firstIsDash f = true) (hlook : findKey table f = some opt)
    (h1 : opt.name ≠ "help") (h2 : opt.name ≠ "version") (h3 : opt.name ≠ "")
    (rest : List String) (hempty : getKey result opt.name = "") :
    parseLoop table options argv0 (f :: "" :: rest) result pos
      = parseLoop table options argv0 rest (setKey result opt.name "") pos
    ∧ getKey (setKey result opt.name "") opt.name = getKey result opt.name := by
  constructor
  · rw [parseLoop.eq_3, if_neg (ne_empty_of_firstIsDash hdash), if_pos hdash]
    simp only [hlook]
    rw [if_neg h1, if_neg h2, if_pos h3,
      if_neg (show ¬ firstIsDash "" = true from by decide),
      if_neg (not_not_intro hempty)]
  · rw [getKey_setKey_self, hempty]

/-- C9 (witness): the theorem applied to the schema `[{name n, flags
[-x]}]` with the scan at `["-x", ""]`. -/
theorem empty_value_accepted_witness :
    parseLoop [("-x", ⟨"n", ["-x"], "d", ""⟩)] [⟨"n", ["-x"], "d", ""⟩] "prog"
      ["-x", ""] [] emptyOption
      = parseLoop [("-x", ⟨"n", ["-x"], "d", ""⟩)] [⟨"n", ["-x"], "d", ""⟩] "prog"
          [] (setKey [] "n" "") emptyOption
    ∧ getKey (setKey [] "n" "") "n" = getKey [] "n" :=
  empty_value_accepted [("-x", ⟨"n", ["-x"], "d", ""⟩)] [⟨"n", ["-x"], "d", ""⟩]
    "prog" [] emptyOption "-x" ⟨"n", ["-x"], "d", ""⟩ (by decide) rfl
    (by decide) (by decide) (by decide) [] rfl

/-- C10: the scan classifies each token by its first character, read via
`front()`, so it requires every token of `argv[1..]` to be non-empty;
under that precondition the undefined out-of-bounds access never occurs
(the model's `ub` outcome is unreachable), while an input containing an
empty-string token does reach the undefined access, as the second
conjunct shows on the input `[""]`. -/
theorem parse_front_requires_nonempty_tokens (argv0 : String) (args : List String)
    (options : List ProgramOption) (h : ∀ a ∈ args, a ≠ "") :
    parse argv0 args options ≠ .ub
    ∧ parse argv0 [""] ([] : List ProgramOption) = .ub := by
  constructor
  · cases hbt : buildTable options [] [] emptyOption with
    | none =>
      simp only [parse, hbt]
      exact fun hc => Outcome.noConfusion hc
    | some st =>
      obtain ⟨table, result0, pos0⟩ := st
      simp only [parse, hbt]
      exact parseLoop_ne_ub table options argv0 args.length args (Nat.le_refl _) h
        result0 pos0
  · rfl

/-- C10 (witness): the theorem applied to a non-empty token list and the
empty schema. -/
theorem parse_front_requires_nonempty_tokens_witness :
    parse "prog" ["a"] ([] : List ProgramOption) ≠ .ub
    ∧ parse "prog" [""] ([] : List ProgramOption) = .ub :=
  parse_front_requires_nonempty_tokens "prog" ["a"] [] (by decide)
